import Mathlib

set_option maxHeartbeats 1000000

/-!
Shallow embedding of the interactive terminal viewer in src/cli/src/main.rs.

Rust strings are modelled as lists of characters (`List Char`).  Rust
`String.len` returns the UTF-8 byte length, which is modelled by `utf8Len`,
the sum of the UTF-8 sizes of the characters; `chars().count()` is the list
length.  Rust `char::is_whitespace` is modelled by `Char.isWhitespace`
(ASCII whitespace; the difference only concerns exotic Unicode spaces and
does not affect any statement below).
-/

/-- UTF-8 byte length of a character list, matching Rust `String::len`. -/
def utf8Len (s : List Char) : Nat := (s.map Char.utf8Size).sum

/-- The ellipsis character appended by `clamp_text`. -/
def ellipsisChar : Char := '…'

/-- Embedding of `clamp_text` (main.rs 927-937): if the byte length of the
text is at most `max_width`, the text is returned unchanged; otherwise the
first `max_width - 1` characters are kept and an ellipsis is appended
(the subtraction saturates at zero, as in Rust). -/
def clamp_text (text : List Char) (max_width : Nat) : List Char :=
  if utf8Len text ≤ max_width then text
  else text.take (max_width - 1) ++ [ellipsisChar]

theorem utf8Size_pos (c : Char) : 1 ≤ c.utf8Size := Char.utf8Size_pos c

theorem length_le_utf8Len (s : List Char) : s.length ≤ utf8Len s := by
  induction s with
  | nil => simp [utf8Len]
  | cons c t ih =>
    have h := utf8Size_pos c
    simp only [utf8Len, List.map_cons, List.sum_cons, List.length_cons]
    have : t.length ≤ utf8Len t := ih
    simp only [utf8Len] at this
    omega

/-- Claim C1 (amended): for every text and width at least 1, the result of
`clamp_text` has character count at most the width; if the UTF-8 byte length
of the original is at most the width, the result equals the original
unchanged; and if the character count of the original exceeds the width,
the result is the first `width - 1` characters followed by the ellipsis
character, so its non-ellipsis prefix has exactly `width - 1` characters. -/
theorem c1_truncate_amended (text : List Char) (w : Nat) (hw : 1 ≤ w) :
    (clamp_text text w).length ≤ w
    ∧ (utf8Len text ≤ w → clamp_text text w = text)
    ∧ (w < text.length →
        clamp_text text w = text.take (w - 1) ++ [ellipsisChar]
        ∧ (text.take (w - 1)).length = w - 1) := by
  by_cases h : utf8Len text ≤ w
  · have hlen : text.length ≤ w := le_trans (length_le_utf8Len text) h
    refine ⟨?_, fun _ => ?_, fun hlt => absurd hlt (by omega)⟩
    · simp [clamp_text, h, hlen]
    · simp [clamp_text, h]
  · have hby : w < utf8Len text := by omega
    refine ⟨?_, fun hc => absurd hc h, fun hlt => ?_⟩
    · simp only [clamp_text, if_neg h, List.length_append, List.length_take,
        List.length_cons, List.length_nil]
      omega
    · refine ⟨by simp [clamp_text, if_neg h], ?_⟩
      simp only [List.length_take]
      omega

/-- Claim C1 counterexample: the single-character text made of the letter
e-acute has character count 1, which is at most the width 1, yet
`clamp_text` does not return it unchanged (its UTF-8 byte length is 2, and
the code compares byte length, not character count). -/
theorem c1_truncate_counterexample :
    (['é'] : List Char).length ≤ 1 ∧ clamp_text ['é'] 1 ≠ ['é'] := by
  decide

/-- Witness for C1: the amended theorem applied at the text "hello" and
width 3. -/
theorem c1_truncate_witness :
    1 ≤ 3 ∧
    ((clamp_text "hello".data 3).length ≤ 3
      ∧ (utf8Len "hello".data ≤ 3 → clamp_text "hello".data 3 = "hello".data)
      ∧ (3 < "hello".data.length →
          clamp_text "hello".data 3 = "hello".data.take (3 - 1) ++ [ellipsisChar]
          ∧ ("hello".data.take (3 - 1)).length = 3 - 1)) :=
  ⟨by decide, c1_truncate_amended "hello".data 3 (by decide)⟩

/-!
Data model (main.rs 19-66).  Static strings become character lists.
-/

structure Link where
  label : List Char
  url : List Char
deriving DecidableEq

structure AboutData where
  tagline : List Char
  links : List Link
deriving DecidableEq

structure Post where
  title : List Char
  date : List Char
  body : List Char
  url : List Char
  sort_key : List Char
deriving DecidableEq

structure ContentTab where
  name : List Char
  description : List Char
  posts : List Post
deriving DecidableEq

inductive TabData where
  | about (a : AboutData)
  | content (t : ContentTab)
deriving DecidableEq

structure HeaderData where
  title : List Char
  subtitle : List Char
deriving DecidableEq

structure AppData where
  header : HeaderData
  tabs : List TabData
deriving DecidableEq

structure AppState where
  tab_index : Nat
  list_index : Nat
  list_scroll : Nat
  content_scroll : Nat
  content_scroll_max : Nat
  status : Option (List Char)
deriving DecidableEq

/-- Embedding of `list_length` (main.rs 597-603). -/
def list_length (data : AppData) (tab_index : Nat) : Nat :=
  match data.tabs[tab_index]? with
  | some (.about a) => a.links.length
  | some (.content t) => t.posts.length
  | none => 0

/-- Embedding of `switch_tab` (main.rs 248-258). -/
def switch_tab (state : AppState) (index total : Nat) : AppState :=
  if index ≥ total then state
  else
    { tab_index := index, list_index := 0, list_scroll := 0,
      content_scroll := 0, content_scroll_max := 0, status := none }

/-- Embedding of `move_selection` (main.rs 260-276).  The `i32` arithmetic of
the source is modelled on `Int` (the values involved are tiny). -/
def move_selection (data : AppData) (state : AppState) (delta : Int) : AppState :=
  let mx := list_length data state.tab_index
  if mx = 0 then { state with list_index := 0 }
  else
    let len : Int := mx
    let next : Int := (state.list_index : Int) + delta
    let next := if next < 0 then len - 1 else if next ≥ len then 0 else next
    { state with list_index := next.toNat, content_scroll := 0,
                 content_scroll_max := 0 }

/-- Embedding of `scroll_content` (main.rs 278-287). -/
def scroll_content (state : AppState) (delta : Int) : AppState :=
  let mx : Int := state.content_scroll_max
  let next : Int := (state.content_scroll : Int) + delta
  let next := if next < 0 then 0 else if next > mx then mx else next
  { state with content_scroll := next.toNat }

/-- Embedding of `open_selected` (main.rs 289-311).  The external URL opener
(`open_url`) is an out-of-scope collaborator; it is abstracted as a function
from the URL to a success-or-error-message outcome. -/
def open_selected (data : AppData)
    (openResult : List Char → Except (List Char) Unit)
    (state : AppState) : AppState :=
  match data.tabs[state.tab_index]? with
  | some (.about a) =>
    match a.links[state.list_index]? with
    | some link =>
      { state with status := some (match openResult link.url with
          | .ok _ => "Opened ".data ++ link.label
          | .error err =>
              "Failed to open ".data ++ link.label ++ " (".data ++ err ++ ")".data) }
    | none => state
  | some (.content t) =>
    match t.posts[state.list_index]? with
    | some post =>
      { state with status := some (match openResult post.url with
          | .ok _ => "Opened ".data ++ post.title
          | .error err =>
              "Failed to open ".data ++ post.title ++ " (".data ++ err ++ ")".data) }
    | none => state
  | none => state

/-- Embedding of `clamp_scroll` (main.rs 584-595); all Rust saturating
subtractions are Nat subtractions. -/
def clamp_scroll (scroll index height total : Nat) : Nat :=
  if total ≤ height then 0
  else if index < scroll then index
  else if index ≥ scroll + height then index - (height - 1)
  else min scroll (total - height)

/-- The content-scroll actions dispatched by `handle_key` (main.rs 237-240):
PageUp and PageDown call `scroll_content` with deltas -10 and 10, Home and
the t key set `content_scroll` to 0, and the capital G key sets it to
`content_scroll_max`; `.scroll d` covers `scroll_content` for an arbitrary
delta. -/
inductive ScrollAct where
  | scroll (delta : Int)
  | pageUp
  | pageDown
  | home
  | gotoBottom
deriving DecidableEq

/-- Effect of one content-scroll action on the state, following the
corresponding arms of `handle_key`. -/
def apply_scroll (state : AppState) : ScrollAct → AppState
  | .scroll d => scroll_content state d
  | .pageUp => scroll_content state (-10)
  | .pageDown => scroll_content state 10
  | .home => { state with content_scroll := 0 }
  | .gotoBottom => { state with content_scroll := state.content_scroll_max }

/-!
Sample data used by witnesses.
-/

def linkZero : Link := ⟨"LinkedIn".data, "https".data⟩

def sampleLinks : List Link :=
  [linkZero, ⟨"X".data, "x".data⟩, ⟨"GitHub".data, "g".data⟩, ⟨"Email".data, "m".data⟩]

def sampleData : AppData :=
  ⟨⟨"John Jeong".data, "subtitle".data⟩, [.about ⟨"tagline".data, sampleLinks⟩]⟩

def sampleState : AppState := ⟨0, 1, 0, 5, 9, none⟩

def sampleOpenOk : List Char → Except (List Char) Unit := fun _ => .ok ()

/-!
Claim C4 and claim C10: switch_tab.
-/

/-- Claim C4: switching to an in-bounds tab sets the tab index and resets
every other field (selection, both scroll offsets, the scroll bound, and the
status message); an out-of-bounds target leaves the whole state unchanged. -/
theorem c4_switch_tab_spec (s : AppState) (index total : Nat) :
    (index < total →
      switch_tab s index total =
        { tab_index := index, list_index := 0, list_scroll := 0,
          content_scroll := 0, content_scroll_max := 0, status := none })
    ∧ (total ≤ index → switch_tab s index total = s) := by
  constructor
  · intro h
    simp [switch_tab, Nat.not_le.mpr h]
  · intro h
    simp [switch_tab, h]

/-- Witness for C4 at a concrete state: target 0 of 1 tab is in bounds,
target 5 of 1 tab is out of bounds. -/
theorem c4_switch_tab_witness :
    (0 < 1 ∧ switch_tab sampleState 0 1 =
      { tab_index := 0, list_index := 0, list_scroll := 0,
        content_scroll := 0, content_scroll_max := 0, status := none })
    ∧ (1 ≤ 5 ∧ switch_tab sampleState 5 1 = sampleState) :=
  ⟨⟨by decide, (c4_switch_tab_spec sampleState 0 1).1 (by decide)⟩,
   ⟨by decide, (c4_switch_tab_spec sampleState 5 1).2 (by decide)⟩⟩

/-- Claim C10: switching to the tab that is already active is not a no-op:
the selection, both scroll fields, the scroll bound and the status are still
reset, so the state changes whenever any of them was nonzero. -/
theorem c10_switch_tab_active_reset (s : AppState) (total : Nat)
    (h : s.tab_index < total) :
    switch_tab s s.tab_index total =
      { tab_index := s.tab_index, list_index := 0, list_scroll := 0,
        content_scroll := 0, content_scroll_max := 0, status := none }
    ∧ (s.list_index ≠ 0 ∨ s.list_scroll ≠ 0 ∨ s.content_scroll ≠ 0
        ∨ s.content_scroll_max ≠ 0 ∨ s.status ≠ none →
        switch_tab s s.tab_index total ≠ s) := by
  have hif : ¬ s.tab_index ≥ total := Nat.not_le.mpr h
  have heq : switch_tab s s.tab_index total =
      { tab_index := s.tab_index, list_index := 0, list_scroll := 0,
        content_scroll := 0, content_scroll_max := 0, status := none } := by
    simp [switch_tab, hif]
  refine ⟨heq, fun hne hcontra => ?_⟩
  rw [heq] at hcontra
  obtain ⟨ti, li, ls, cs, cm, st⟩ := s
  simp only [AppState.mk.injEq] at hcontra
  obtain ⟨-, h1, h2, h3, h4, h5⟩ := hcontra
  simp only at hne
  rcases hne with h' | h' | h' | h' | h' <;> simp_all

/-- Witness for C10: the sample state has tab 0 active with a nonzero
selection and nonzero content scroll; pressing the key for tab 0 again
resets them. -/
theorem c10_switch_tab_witness :
    sampleState.tab_index < 1
    ∧ switch_tab sampleState sampleState.tab_index 1 =
        { tab_index := sampleState.tab_index, list_index := 0, list_scroll := 0,
          content_scroll := 0, content_scroll_max := 0, status := none }
    ∧ switch_tab sampleState sampleState.tab_index 1 ≠ sampleState :=
  ⟨by decide,
   (c10_switch_tab_active_reset sampleState 1 (by decide)).1,
   (c10_switch_tab_active_reset sampleState 1 (by decide)).2 (Or.inl (by decide))⟩

/-!
Claim C5: the content-scroll clamp.
-/

theorem scroll_content_clamp_eq (s : AppState) (d : Int) :
    (scroll_content s d).content_scroll
      = (min (max ((s.content_scroll : Int) + d) 0)
          (s.content_scroll_max : Int)).toNat
    ∧ (scroll_content s d).content_scroll_max = s.content_scroll_max := by
  simp only [scroll_content]
  constructor
  · split
    · rw [Int.max_def, Int.min_def]
      split <;> split <;> omega
    · split
      · rw [Int.max_def, Int.min_def]
        split <;> split <;> omega
      · rw [Int.max_def, Int.min_def]
        split <;> split <;> omega
  · trivial

theorem apply_scroll_inv (s : AppState) (a : ScrollAct) :
    (apply_scroll s a).content_scroll ≤ (apply_scroll s a).content_scroll_max := by
  cases a with
  | scroll d =>
    obtain ⟨h1, h2⟩ := scroll_content_clamp_eq s d
    simp only [apply_scroll] at *
    rw [h1, h2]
    omega
  | pageUp =>
    obtain ⟨h1, h2⟩ := scroll_content_clamp_eq s (-10)
    simp only [apply_scroll] at *
    rw [h1, h2]
    omega
  | pageDown =>
    obtain ⟨h1, h2⟩ := scroll_content_clamp_eq s 10
    simp only [apply_scroll] at *
    rw [h1, h2]
    omega
  | home => simp [apply_scroll]
  | gotoBottom => simp [apply_scroll]

theorem foldl_apply_scroll_inv (acts : List ScrollAct) :
    ∀ s : AppState, s.content_scroll ≤ s.content_scroll_max →
      (acts.foldl apply_scroll s).content_scroll
        ≤ (acts.foldl apply_scroll s).content_scroll_max := by
  induction acts with
  | nil => intro s h; simpa using h
  | cons a rest ih =>
    intro s _
    rw [List.foldl_cons]
    exact ih (apply_scroll s a) (apply_scroll_inv s a)

/-- Claim C5: starting from a state whose content scroll respects its bound,
any sequence of content-scroll actions (arbitrary deltas, the PageUp and
PageDown deltas of -10 and +10, and the jump-to-top and jump-to-bottom
actions) keeps `content_scroll` inside the interval from 0 to
`content_scroll_max`; moreover every `scroll_content` call sets
`content_scroll` to the clamp of `content_scroll + delta` into that
interval. -/
theorem c5_scroll_clamp_invariant (s : AppState)
    (h : s.content_scroll ≤ s.content_scroll_max) :
    (∀ acts : List ScrollAct,
        (acts.foldl apply_scroll s).content_scroll
          ≤ (acts.foldl apply_scroll s).content_scroll_max)
    ∧ (∀ d : Int,
        (scroll_content s d).content_scroll
          = (min (max ((s.content_scroll : Int) + d) 0)
              (s.content_scroll_max : Int)).toNat) :=
  ⟨fun acts => foldl_apply_scroll_inv acts s h,
   fun d => (scroll_content_clamp_eq s d).1⟩

/-- Witness for C5 at the sample state (content scroll 5, bound 9), a
concrete action sequence, and delta 10. -/
theorem c5_scroll_clamp_witness :
    sampleState.content_scroll ≤ sampleState.content_scroll_max
    ∧ (([ScrollAct.pageDown, ScrollAct.scroll (-3),
          ScrollAct.gotoBottom].foldl apply_scroll sampleState).content_scroll
        ≤ ([ScrollAct.pageDown, ScrollAct.scroll (-3),
          ScrollAct.gotoBottom].foldl apply_scroll sampleState).content_scroll_max)
    ∧ (scroll_content sampleState 10).content_scroll
        = (min (max ((sampleState.content_scroll : Int) + 10) 0)
            (sampleState.content_scroll_max : Int)).toNat :=
  ⟨by decide,
   (c5_scroll_clamp_invariant sampleState (by decide)).1
     [ScrollAct.pageDown, ScrollAct.scroll (-3), ScrollAct.gotoBottom],
   (c5_scroll_clamp_invariant sampleState (by decide)).2 10⟩

/-!
Claim C6: the list scroll window recomputation.
-/

/-- Claim C6 counterexample: with prior scroll 0, selection index 0, visible
height 0 and 1 item, the claimed window invariant fails: the total (1) is
not at most the height (0), yet the returned scroll (0) does not satisfy
`index < scroll + height`. -/
theorem c6_clamp_scroll_counterexample :
    ¬ (1 ≤ 0) ∧ clamp_scroll 0 0 0 1 = 0 ∧ ¬ (0 < clamp_scroll 0 0 0 1 + 0) := by
  decide

/-- Claim C6 (amended): for every prior scroll, every visible height of at
least 1, every total, and every selection index below the total, the
recomputed scroll is 0 when everything fits; otherwise the window invariant
holds, with a selection above the prior window becoming the first visible
item, a selection below it becoming the last visible item, and an in-window
selection keeping the prior scroll clamped to at most total minus height.
With 4 items, height 2 and selection index 3, the result is 2 for every
well-formed prior scroll. -/
theorem c6_clamp_scroll_amended :
    (∀ scroll index height total : Nat, 1 ≤ height → index < total →
      (total ≤ height → clamp_scroll scroll index height total = 0)
      ∧ (height < total →
          clamp_scroll scroll index height total ≤ index
          ∧ index < clamp_scroll scroll index height total + height
          ∧ (index < scroll → clamp_scroll scroll index height total = index)
          ∧ (scroll + height ≤ index →
              clamp_scroll scroll index height total = index + 1 - height)
          ∧ (scroll ≤ index → index < scroll + height →
              clamp_scroll scroll index height total
                = min scroll (total - height))))
    ∧ (∀ p, p < 3 → clamp_scroll p 3 2 4 = 2) := by
  constructor
  · intro scroll index height total h1 h2
    refine ⟨fun hth => by simp [clamp_scroll, hth], fun htl => ?_⟩
    have hnth : ¬ total ≤ height := by omega
    rcases Nat.lt_or_ge index scroll with habove | hge
    · have hcs : clamp_scroll scroll index height total = index := by
        simp [clamp_scroll, hnth, habove]
      rw [hcs]
      exact ⟨le_refl _, by omega, fun _ => rfl,
        fun hb => by omega, fun hs _ => absurd hs (by omega)⟩
    · rcases Nat.lt_or_ge index (scroll + height) with hin | hbelow
      · have hcs : clamp_scroll scroll index height total
            = min scroll (total - height) := by
          unfold clamp_scroll
          rw [if_neg hnth, if_neg (by omega), if_neg (by omega)]
        rw [hcs]
        have hmin1 : min scroll (total - height) ≤ scroll := Nat.min_le_left _ _
        have hmin2 : min scroll (total - height) ≤ total - height :=
          Nat.min_le_right _ _
        refine ⟨le_trans hmin1 hge, ?_, fun hab => absurd hab (by omega),
          fun hb => absurd hb (by omega), fun _ _ => rfl⟩
        rcases Nat.le_total scroll (total - height) with hmn | hmn
        · rw [Nat.min_eq_left hmn]; omega
        · rw [Nat.min_eq_right hmn]; omega
      · have hcs : clamp_scroll scroll index height total
            = index - (height - 1) := by
          unfold clamp_scroll
          rw [if_neg hnth, if_neg (by omega), if_pos (by omega)]
        rw [hcs]
        refine ⟨by omega, by omega, fun hab => absurd hab (by omega),
          fun _ => by omega, fun _ hin => absurd hin (by omega)⟩
  · decide

/-- Witness for C6: height 2 and index 3 of 4 items; a selection below the
window at prior scroll 0 becomes the last visible item, giving scroll 2. -/
theorem c6_clamp_scroll_witness :
    1 ≤ 2 ∧ 3 < 4 ∧ 2 < 4 ∧ 0 + 2 ≤ 3 ∧ clamp_scroll 0 3 2 4 = 3 + 1 - 2 :=
  ⟨by decide, by decide, by decide, by decide,
   (((c6_clamp_scroll_amended.1 0 3 2 4 (by decide) (by decide)).2
      (by decide)).2.2.2.1 (by decide))⟩

/-!
Claim C3: move_selection.
-/

theorem move_selection_plus_one (data : AppData) (s : AppState)
    (h0 : 0 < list_length data s.tab_index)
    (hlt : s.list_index < list_length data s.tab_index) :
    (move_selection data s 1).tab_index = s.tab_index
    ∧ (move_selection data s 1).list_index
        = (s.list_index + 1) % list_length data s.tab_index := by
  have hne : ¬ (list_length data s.tab_index = 0) := by omega
  simp only [move_selection, hne, if_false]
  refine ⟨trivial, ?_⟩
  rw [if_neg (by omega)]
  rcases Nat.lt_or_ge (s.list_index + 1) (list_length data s.tab_index) with hc | hc
  · rw [if_neg (by omega), Nat.mod_eq_of_lt hc]
    omega
  · have heq : s.list_index + 1 = list_length data s.tab_index := by omega
    rw [if_pos (by omega), heq, Nat.mod_self]
    rfl

theorem move_selection_iterate (data : AppData) (s : AppState)
    (h0 : 0 < list_length data s.tab_index)
    (hlt : s.list_index < list_length data s.tab_index) (k : Nat) :
    (((fun st => move_selection data st 1)^[k]) s).tab_index = s.tab_index
    ∧ (((fun st => move_selection data st 1)^[k]) s).list_index
        = (s.list_index + k) % list_length data s.tab_index := by
  induction k with
  | zero => simpa using (Nat.mod_eq_of_lt hlt).symm
  | succ k ih =>
    obtain ⟨iht, ihl⟩ := ih
    rw [Function.iterate_succ_apply']
    have hNeq : list_length data
        (((fun st => move_selection data st 1)^[k]) s).tab_index
        = list_length data s.tab_index := by rw [iht]
    have h02 : 0 < list_length data
        (((fun st => move_selection data st 1)^[k]) s).tab_index := by
      rw [hNeq]; exact h0
    have hlt2 : (((fun st => move_selection data st 1)^[k]) s).list_index
        < list_length data (((fun st => move_selection data st 1)^[k]) s).tab_index := by
      rw [hNeq, ihl]; exact Nat.mod_lt _ h0
    obtain ⟨ht, hl⟩ :=
      move_selection_plus_one data (((fun st => move_selection data st 1)^[k]) s) h02 hlt2
    constructor
    · rw [ht, iht]
    · rw [hl, hNeq, ihl, Nat.mod_add_mod, Nat.add_assoc]

/-- Claim C3: on a tab with N items (N positive) and a well-formed selection,
moving the selection forward N times returns it to its starting index;
moving backward from index 0 selects index N-1; every move on a non-empty
tab resets `content_scroll` and `content_scroll_max` to 0; and on a tab
with zero items a move forces the selection index to 0. -/
theorem c3_move_selection_wraparound (data : AppData) (s : AppState) :
    (0 < list_length data s.tab_index →
      s.list_index < list_length data s.tab_index →
      (((fun st => move_selection data st 1)^[list_length data s.tab_index]) s).list_index
        = s.list_index)
    ∧ (0 < list_length data s.tab_index → s.list_index = 0 →
        (move_selection data s (-1)).list_index
          = list_length data s.tab_index - 1)
    ∧ (0 < list_length data s.tab_index → ∀ d : Int,
        (move_selection data s d).content_scroll = 0
        ∧ (move_selection data s d).content_scroll_max = 0)
    ∧ (list_length data s.tab_index = 0 → ∀ d : Int,
        (move_selection data s d).list_index = 0) := by
  refine ⟨fun h0 hlt => ?_, fun h0 hz => ?_, fun h0 d => ?_, fun hz d => ?_⟩
  · rw [(move_selection_iterate data s h0 hlt (list_length data s.tab_index)).2,
      Nat.add_mod_right, Nat.mod_eq_of_lt hlt]
  · have hne : ¬ (list_length data s.tab_index = 0) := by omega
    simp only [move_selection]
    rw [if_neg hne]
    simp only [hz]
    rw [if_pos (by omega)]
    omega
  · have hne : ¬ (list_length data s.tab_index = 0) := by omega
    simp only [move_selection]
    rw [if_neg hne]
    exact ⟨rfl, rfl⟩
  · simp [move_selection, hz]

/-- Witness for C3 at the sample data (one About tab with four links) and the
sample state (selection index 1): four forward moves return to index 1, and
the reset conjuncts hold concretely. -/
theorem c3_move_selection_witness :
    0 < list_length sampleData sampleState.tab_index
    ∧ sampleState.list_index < list_length sampleData sampleState.tab_index
    ∧ (((fun st => move_selection sampleData st 1)^[list_length sampleData sampleState.tab_index]) sampleState).list_index
        = sampleState.list_index
    ∧ (move_selection sampleData sampleState 1).content_scroll = 0
    ∧ (move_selection sampleData sampleState 1).content_scroll_max = 0 :=
  ⟨by decide, by decide,
   (c3_move_selection_wraparound sampleData sampleState).1 (by decide) (by decide),
   ((c3_move_selection_wraparound sampleData sampleState).2.2.1 (by decide) 1).1,
   ((c3_move_selection_wraparound sampleData sampleState).2.2.1 (by decide) 1).2⟩

/-!
Claim C9: open_selected only sets the status message.
-/

theorem open_selected_only_status (data : AppData)
    (f : List Char → Except (List Char) Unit) (s : AppState) :
    open_selected data f s = { s with status := (open_selected data f s).status } := by
  unfold open_selected
  repeat' split
  all_goals rfl

/-- Claim C9: for every state, tab configuration and opener outcome, the
open-selected action changes no field other than `status`; when an About
link (or a content entry) is selected, `status` becomes the success message
"Opened label" if the opener succeeds, or the failure message
"Failed to open label (error)" if it fails. -/
theorem c9_open_selected_frame (data : AppData)
    (f : List Char → Except (List Char) Unit) (s : AppState) :
    (open_selected data f s).tab_index = s.tab_index
    ∧ (open_selected data f s).list_index = s.list_index
    ∧ (open_selected data f s).list_scroll = s.list_scroll
    ∧ (open_selected data f s).content_scroll = s.content_scroll
    ∧ (open_selected data f s).content_scroll_max = s.content_scroll_max
    ∧ (∀ a link, data.tabs[s.tab_index]? = some (.about a) →
        a.links[s.list_index]? = some link →
        (f link.url = .ok () →
          (open_selected data f s).status = some ("Opened ".data ++ link.label))
        ∧ (∀ err, f link.url = .error err →
            (open_selected data f s).status
              = some ("Failed to open ".data ++ link.label
                  ++ " (".data ++ err ++ ")".data)))
    ∧ (∀ t post, data.tabs[s.tab_index]? = some (.content t) →
        t.posts[s.list_index]? = some post →
        (f post.url = .ok () →
          (open_selected data f s).status = some ("Opened ".data ++ post.title))
        ∧ (∀ err, f post.url = .error err →
            (open_selected data f s).status
              = some ("Failed to open ".data ++ post.title
                  ++ " (".data ++ err ++ ")".data))) := by
  refine ⟨?_, ?_, ?_, ?_, ?_, ?_, ?_⟩
  · rw [open_selected_only_status data f s]
  · rw [open_selected_only_status data f s]
  · rw [open_selected_only_status data f s]
  · rw [open_selected_only_status data f s]
  · rw [open_selected_only_status data f s]
  · intro a link htab hlink
    constructor
    · intro hok
      simp [open_selected, htab, hlink, hok]
    · intro err herr
      simp [open_selected, htab, hlink, herr]
  · intro t post htab hpost
    constructor
    · intro hok
      simp [open_selected, htab, hpost, hok]
    · intro err herr
      simp [open_selected, htab, hpost, herr]

/-- Witness for C9 at the sample data: opening the first About link with a
succeeding opener leaves the selection untouched and records the success
message. -/
theorem c9_open_selected_witness :
    (open_selected sampleData sampleOpenOk sampleState).tab_index
        = sampleState.tab_index
    ∧ (open_selected sampleData sampleOpenOk sampleState).content_scroll
        = sampleState.content_scroll
    ∧ (open_selected sampleData sampleOpenOk sampleState).status
        = some ("Opened ".data ++ (⟨"X".data, "x".data⟩ : Link).label) :=
  ⟨(c9_open_selected_frame sampleData sampleOpenOk sampleState).1,
   (c9_open_selected_frame sampleData sampleOpenOk sampleState).2.2.2.1,
   ((c9_open_selected_frame sampleData sampleOpenOk sampleState).2.2.2.2.2.1
      ⟨"tagline".data, sampleLinks⟩ ⟨"X".data, "x".data⟩ rfl rfl).1 rfl⟩

/-!
Word wrapping (main.rs 872-925) and the string helpers it uses.
-/

/-- Embedding of Rust `str::split_whitespace` on character lists: the maximal
runs of non-whitespace characters, in order.  The accumulator holds the
characters of the current word, reversed. -/
def splitWsAux : List Char → List Char → List (List Char)
  | [], acc => if acc = [] then [] else [acc.reverse]
  | c :: rest, acc =>
    if c.isWhitespace then
      if acc = [] then splitWsAux rest []
      else acc.reverse :: splitWsAux rest []
    else splitWsAux rest (c :: acc)

def splitWhitespace (s : List Char) : List (List Char) := splitWsAux s []

/-- Embedding of Rust `str::trim_start`. -/
def trimStart (s : List Char) : List Char := s.dropWhile (fun c => c.isWhitespace)

/-- Embedding of Rust `str::trim_end`. -/
def trimEnd (s : List Char) : List Char :=
  (s.reverse.dropWhile (fun c => c.isWhitespace)).reverse

/-- Embedding of Rust `str::trim`. -/
def trim (s : List Char) : List Char := trimStart (trimEnd s)

/-- Split a character list at each newline character; the result has one
piece more than the number of newlines. -/
def splitOnNl : List Char → List (List Char)
  | [] => [[]]
  | c :: rest =>
    if c = '\n' then [] :: splitOnNl rest
    else
      match splitOnNl rest with
      | [] => [[c]]
      | p :: ps => (c :: p) :: ps

/-- Remove one trailing carriage return, as Rust `str::lines` does for a
line that ended in a carriage return and newline pair. -/
def stripCr (l : List Char) : List Char :=
  if l.getLast? = some '\r' then l.dropLast else l

/-- Embedding of Rust `str::lines`: split on newlines; every piece except
the last was terminated by a newline and has a trailing carriage return
stripped; the final unterminated piece is kept as is, and dropped when it is
empty (so a trailing newline adds no line and the empty string has none). -/
def rustLines (s : List Char) : List (List Char) :=
  let ps := splitOnNl s
  ps.dropLast.map stripCr ++
    (match ps.getLast? with
     | some l => if l = [] then [] else [l]
     | none => [])

/-- A word produced by `splitWhitespace`: nonempty and whitespace-free. -/
def goodWord (x : List Char) : Bool :=
  !x.isEmpty && x.all (fun c => !c.isWhitespace)

/-- Words joined by single spaces, the shape of a line built by `wrap_line`
(which pushes one space before each appended word). -/
def joinSp : List (List Char) → List Char
  | [] => []
  | [w] => w
  | w :: ws => w ++ ' ' :: joinSp ws

/-- The word loop of `wrap_line` (main.rs 899-918).  `current` is the line
being built, `first` records whether the very first word is still pending
(only that word receives the bullet marker `pfx`; later line starts receive
the indent `ind`).  Lengths are Rust byte lengths, hence `utf8Len`. -/
def wrap_core (width : Nat) (pfx ind : List Char) :
    List (List Char) → Bool → List Char → List (List Char)
  | [], _, current => if current = [] then [] else [current]
  | word :: ws, first, current =>
    if current = [] then
      wrap_core width pfx ind ws false ((if first then pfx else ind) ++ word)
    else if utf8Len current + 1 + utf8Len word ≤ width then
      wrap_core width pfx ind ws first (current ++ ' ' :: word)
    else
      current :: wrap_core width pfx ind ws first ((if first then pfx else ind) ++ word)

/-- Embedding of `wrap_line` (main.rs 893-925): greedy word wrap with a
prefix on the first line and a same-width space indent on continuation
lines; a wordless input still yields one line holding just the prefix. -/
def wrap_line (text : List Char) (width : Nat) (pfx : List Char) :
    List (List Char) :=
  let ls := wrap_core width pfx (List.replicate pfx.length ' ')
    (splitWhitespace text) true []
  if ls = [] then [pfx] else ls

/-- One source line of `wrap_markdown` (main.rs 875-888): blank lines become
one empty output line; a line whose end-trimmed form starts with a bullet
marker is wrapped with that marker as prefix and its trimmed remainder as
content; other lines are wrapped with no prefix. -/
def wrap_md_line (wd : Nat) (raw : List Char) : List (List Char) :=
  if trim raw = [] then [[]]
  else
    let trimmed := trimEnd raw
    if trimmed.take 2 = ['-', ' '] ∨ trimmed.take 2 = ['*', ' '] then
      wrap_line (trim (trimmed.drop 2)) wd (trimmed.take 2)
    else
      wrap_line trimmed wd []

/-- Embedding of `wrap_markdown` (main.rs 872-891): the width is floored at
10, each source line is processed by `wrap_md_line`, and the results are
concatenated in order. -/
def wrap_markdown (text : List Char) (width : Nat) : List (List Char) :=
  (rustLines text).foldr (fun raw acc => wrap_md_line (max width 10) raw ++ acc) []


/-!
Basic lemmas about byte lengths, words and space-joined lines.
-/

theorem utf8Len_cons (c : Char) (l : List Char) :
    utf8Len (c :: l) = c.utf8Size + utf8Len l := by
  simp [utf8Len]

theorem utf8Len_append (a b : List Char) :
    utf8Len (a ++ b) = utf8Len a + utf8Len b := by
  simp [utf8Len]

theorem goodWord_iff {x : List Char} :
    goodWord x = true ↔ x ≠ [] ∧ ∀ c ∈ x, c.isWhitespace = false := by
  simp [goodWord, List.isEmpty_iff, List.all_eq_true]

theorem joinSp_cons_of_ne_nil (w : List Char) {ws : List (List Char)}
    (h : ws ≠ []) : joinSp (w :: ws) = w ++ ' ' :: joinSp ws := by
  cases ws with
  | nil => exact absurd rfl h
  | cons w2 ws2 => rfl

theorem joinSp_append {a b : List (List Char)} (ha : a ≠ []) (hb : b ≠ []) :
    joinSp (a ++ b) = joinSp a ++ ' ' :: joinSp b := by
  induction a with
  | nil => exact absurd rfl ha
  | cons w a2 ih =>
    cases a2 with
    | nil =>
      rw [List.singleton_append, joinSp_cons_of_ne_nil w hb]
      rfl
    | cons w2 a3 =>
      have h2 : (w2 :: a3 : List (List Char)) ≠ [] := by simp
      rw [List.cons_append, joinSp_cons_of_ne_nil w (by simp),
        ih h2, joinSp_cons_of_ne_nil w h2]
      simp

theorem joinSp_ne_nil {ws : List (List Char)} (hne : ws ≠ [])
    (hg : ∀ x ∈ ws, goodWord x = true) : joinSp ws ≠ [] := by
  cases ws with
  | nil => exact absurd rfl hne
  | cons w ws2 =>
    have hw : w ≠ [] := (goodWord_iff.mp (hg w (by simp))).1
    cases ws2 with
    | nil => simpa [joinSp] using hw
    | cons w2 ws3 =>
      rw [joinSp_cons_of_ne_nil w (by simp)]
      simp

theorem mem_joinSp {ws : List (List Char)} (hg : ∀ x ∈ ws, goodWord x = true) :
    ∀ c ∈ joinSp ws, c = ' ' ∨ c.isWhitespace = false := by
  induction ws with
  | nil => simp [joinSp]
  | cons w ws2 ih =>
    intro c hc
    cases ws2 with
    | nil =>
      simp only [joinSp] at hc
      exact Or.inr ((goodWord_iff.mp (hg w (by simp))).2 c hc)
    | cons w2 ws3 =>
      rw [joinSp_cons_of_ne_nil w (by simp)] at hc
      rcases List.mem_append.mp hc with h | h
      · exact Or.inr ((goodWord_iff.mp (hg w (by simp))).2 c h)
      · rcases List.mem_cons.mp h with h' | h'
        · exact Or.inl h'
        · exact ih (fun x hx => hg x (by simp [hx])) c h'

theorem joinSp_head {w : List Char} (ws : List (List Char)) (hw : w ≠ []) :
    (joinSp (w :: ws)).head? = w.head? := by
  cases ws with
  | nil => rfl
  | cons w2 ws2 =>
    rw [joinSp_cons_of_ne_nil w (by simp)]
    cases w with
    | nil => exact absurd rfl hw
    | cons c t => rfl

theorem joinSp_last : ∀ ws : List (List Char), ws ≠ [] →
    (∀ x ∈ ws, goodWord x = true) →
    ∃ c cs, (joinSp ws).reverse = c :: cs ∧ c.isWhitespace = false := by
  intro ws
  induction ws with
  | nil => intro h; exact absurd rfl h
  | cons w ws2 ih =>
    intro _ hg
    cases ws2 with
    | nil =>
      have hw := goodWord_iff.mp (hg w (by simp))
      obtain ⟨c, cs, hrev⟩ : ∃ c cs, w.reverse = c :: cs := by
        cases hrev : w.reverse with
        | nil =>
          exact absurd (by simpa using congrArg List.reverse hrev) hw.1
        | cons c cs => exact ⟨c, cs, rfl⟩
      have hcmem : c ∈ w := by
        have : c ∈ w.reverse := by rw [hrev]; simp
        simpa using this
      exact ⟨c, cs, by simpa [joinSp] using hrev, hw.2 c hcmem⟩
    | cons w2 ws3 =>
      obtain ⟨c, cs, hrev, hc⟩ := ih (by simp) (fun x hx => hg x (by simp [hx]))
      refine ⟨c, cs ++ ' ' :: w.reverse, ?_, hc⟩
      rw [joinSp_cons_of_ne_nil w (by simp)]
      simp [hrev]

/-!
Lemmas about splitWhitespace, trim and rustLines.
-/

theorem splitWsAux_good : ∀ (s acc : List Char),
    (∀ c ∈ acc, c.isWhitespace = false) →
    ∀ x ∈ splitWsAux s acc, goodWord x = true := by
  intro s
  induction s with
  | nil =>
    intro acc hacc x hx
    simp only [splitWsAux] at hx
    split at hx
    · simp at hx
    · next hne =>
      simp at hx
      subst hx
      refine goodWord_iff.mpr ⟨by simpa using hne, fun c hc => ?_⟩
      exact hacc c (by simpa using hc)
  | cons c rest ih =>
    intro acc hacc x hx
    simp only [splitWsAux] at hx
    split at hx
    · split at hx
      · exact ih [] (by simp) x hx
      · next hne =>
        rcases List.mem_cons.mp hx with h | h
        · subst h
          refine goodWord_iff.mpr ⟨by simpa using hne, fun c2 hc2 => ?_⟩
          exact hacc c2 (by simpa using hc2)
        · exact ih [] (by simp) x h
    · next hcw =>
      refine ih (c :: acc) (fun c2 hc2 => ?_) x hx
      rcases List.mem_cons.mp hc2 with h | h
      · subst h
        simpa using hcw
      · exact hacc c2 h

theorem splitWhitespace_good (s : List Char) :
    ∀ x ∈ splitWhitespace s, goodWord x = true :=
  splitWsAux_good s [] (by simp)

theorem splitWsAux_nonws : ∀ (w : List Char),
    (∀ c ∈ w, c.isWhitespace = false) →
    ∀ (rest acc : List Char),
      splitWsAux (w ++ rest) acc = splitWsAux rest (w.reverse ++ acc) := by
  intro w
  induction w with
  | nil => intro _ rest acc; simp
  | cons c t ih =>
    intro hg rest acc
    have hc : c.isWhitespace = false := hg c (by simp)
    simp only [List.cons_append, splitWsAux, hc, Bool.false_eq_true, if_false]
    rw [show (c :: t).reverse ++ acc = t.reverse ++ (c :: acc) by simp]
    exact ih (fun c2 h2 => hg c2 (by simp [h2])) rest (c :: acc)

theorem splitWsAux_eq_nil : ∀ (s acc : List Char), splitWsAux s acc = [] →
    acc = [] ∧ ∀ c ∈ s, c.isWhitespace = true := by
  intro s
  induction s with
  | nil =>
    intro acc h
    simp only [splitWsAux] at h
    split at h
    · next he => exact ⟨he, by simp⟩
    · simp at h
  | cons c rest ih =>
    intro acc h
    simp only [splitWsAux] at h
    split at h
    · next hcw =>
      split at h
      · next he =>
        obtain ⟨-, h2⟩ := ih [] h
        refine ⟨he, fun c2 hc2 => ?_⟩
        rcases List.mem_cons.mp hc2 with h' | h'
        · subst h'; exact hcw
        · exact h2 c2 h'
      · simp at h
    · obtain ⟨h1, -⟩ := ih (c :: acc) h
      exact absurd h1 (by simp)

theorem splitWs_joinSp : ∀ ws : List (List Char),
    (∀ x ∈ ws, goodWord x = true) → splitWhitespace (joinSp ws) = ws := by
  intro ws
  induction ws with
  | nil => intro _; rfl
  | cons w ws2 ih =>
    intro hg
    have hw := goodWord_iff.mp (hg w (by simp))
    have hnr : w.reverse ≠ [] := by
      simpa [List.reverse_eq_nil_iff] using hw.1
    cases ws2 with
    | nil =>
      show splitWsAux (joinSp [w]) [] = [w]
      have hj : joinSp [w] = w ++ [] := by simp [joinSp]
      rw [hj, splitWsAux_nonws w hw.2 [] []]
      simp only [splitWsAux, List.append_nil]
      rw [if_neg hnr]
      simp
    | cons w2 ws3 =>
      rw [joinSp_cons_of_ne_nil w (by simp)]
      show splitWsAux (w ++ ' ' :: joinSp (w2 :: ws3)) [] = w :: w2 :: ws3
      rw [splitWsAux_nonws w hw.2 (' ' :: joinSp (w2 :: ws3)) [], List.append_nil]
      simp only [splitWsAux]
      rw [if_pos (by decide), if_neg hnr, List.reverse_reverse]
      have := ih (fun x hx => hg x (by simp [hx]))
      simp only [splitWhitespace] at this
      rw [this]

theorem exists_mem_dropWhile {p : Char → Bool} : ∀ l : List Char,
    (∃ c ∈ l, p c = false) → ∃ c ∈ l.dropWhile p, p c = false := by
  intro l
  induction l with
  | nil => intro h; simp at h
  | cons a t ih =>
    intro h
    by_cases ha : p a = true
    · rw [List.dropWhile_cons_of_pos ha]
      obtain ⟨c, hc, hpc⟩ := h
      rcases List.mem_cons.mp hc with h' | h'
      · subst h'; rw [ha] at hpc; exact absurd hpc (by simp)
      · exact ih ⟨c, h', hpc⟩
    · rw [List.dropWhile_cons_of_neg ha]
      exact h

theorem dropWhile_ne_nil_of_exists {p : Char → Bool} {l : List Char}
    (h : ∃ c ∈ l, p c = false) : l.dropWhile p ≠ [] := by
  obtain ⟨c, hc, hpc⟩ := exists_mem_dropWhile l h
  intro hnil
  rw [hnil] at hc
  simp at hc

theorem exists_nonws_trim {l : List Char}
    (h : ∃ c ∈ l, c.isWhitespace = false) :
    ∃ c ∈ trim l, c.isWhitespace = false := by
  have h1 : ∃ c ∈ l.reverse, c.isWhitespace = false := by
    obtain ⟨c, hc, hpc⟩ := h
    exact ⟨c, by simpa using hc, hpc⟩
  have h2 := exists_mem_dropWhile (p := fun c => c.isWhitespace) l.reverse h1
  have h3 : ∃ c ∈ trimEnd l, c.isWhitespace = false := by
    obtain ⟨c, hc, hpc⟩ := h2
    exact ⟨c, by simpa [trimEnd] using hc, hpc⟩
  exact exists_mem_dropWhile (p := fun c => c.isWhitespace) (trimEnd l) h3

theorem trim_ne_nil {l : List Char}
    (h : ∃ c ∈ l, c.isWhitespace = false) : trim l ≠ [] := by
  obtain ⟨c, hc, hpc⟩ := exists_nonws_trim h
  intro hnil
  rw [hnil] at hc
  simp at hc

theorem trimStart_eq_self {l : List Char}
    (h : ∀ c, l.head? = some c → c.isWhitespace = false) : trimStart l = l := by
  cases l with
  | nil => rfl
  | cons a t =>
    have := h a rfl
    simp [trimStart, List.dropWhile_cons, this]

theorem trimEnd_eq_self {l : List Char}
    (h : ∀ c cs, l.reverse = c :: cs → c.isWhitespace = false) : trimEnd l = l := by
  unfold trimEnd
  cases hrev : l.reverse with
  | nil =>
    have : l = [] := by simpa using congrArg List.reverse hrev
    rw [this]
    rfl
  | cons c cs =>
    have hc := h c cs hrev
    rw [List.dropWhile_cons, if_neg (by simp [hc]), ← hrev, List.reverse_reverse]

theorem splitOnNl_no_nl : ∀ l : List Char, (∀ c ∈ l, ¬ (c = '\n')) →
    splitOnNl l = [l] := by
  intro l
  induction l with
  | nil => intro _; rfl
  | cons c t ih =>
    intro h
    have hc : ¬ (c = '\n') := h c (by simp)
    simp only [splitOnNl, if_neg hc]
    rw [ih (fun c2 h2 => h c2 (by simp [h2]))]

theorem rustLines_single {l : List Char} (hne : l ≠ [])
    (hnl : ∀ c ∈ l, ¬ (c = '\n')) : rustLines l = [l] := by
  unfold rustLines
  rw [splitOnNl_no_nl l hnl]
  simp [hne]

/-!
Structure of the lines produced by wrap_core.
-/

/-- The shape of every line emitted by `wrap_core`: a prefix that is either
the bullet marker (first line) or the indent (continuation lines), followed
by whitespace-free nonempty words joined by single spaces; the line fits the
width unless it carries a single word. -/
def lineShape (width : Nat) (pfx ind l : List Char) : Prop :=
  ∃ p ws, (p = pfx ∨ p = ind) ∧ ws ≠ [] ∧ (∀ x ∈ ws, goodWord x = true)
    ∧ l = p ++ joinSp ws ∧ (utf8Len l ≤ width ∨ ws.length = 1)

theorem utf8Size_space : (' ' : Char).utf8Size = 1 := by decide

theorem utf8Len_joinSp_cons_ge (word : List Char) (ws : List (List Char)) :
    utf8Len word ≤ utf8Len (joinSp (word :: ws)) := by
  cases ws with
  | nil => exact le_refl _
  | cons w2 ws2 =>
    rw [joinSp_cons_of_ne_nil word (by simp), utf8Len_append]
    omega

theorem pfx_joinSp_ne_nil {pfx : List Char} {done : List (List Char)}
    (hdne : done ≠ []) (hg : ∀ x ∈ done, goodWord x = true) :
    pfx ++ joinSp done ≠ [] := by
  intro h
  rcases List.append_eq_nil.mp h with ⟨-, h2⟩
  exact joinSp_ne_nil hdne hg h2

theorem wrap_core_shape (width : Nat) (pfx ind : List Char) :
    ∀ (words : List (List Char)) (first : Bool) (current : List Char),
      (∀ x ∈ words, goodWord x = true) →
      (current = [] ∨ lineShape width pfx ind current) →
      ∀ l ∈ wrap_core width pfx ind words first current,
        lineShape width pfx ind l := by
  intro words
  induction words with
  | nil =>
    intro first current _ hcur l hl
    simp only [wrap_core] at hl
    split at hl
    · simp at hl
    · next hne =>
      simp at hl
      subst hl
      rcases hcur with h | h
      · exact absurd h hne
      · exact h
  | cons word ws ih =>
    intro first current hw hcur l hl
    have hgw : goodWord word = true := hw word (by simp)
    simp only [wrap_core] at hl
    split at hl
    · refine ih false _ (fun x hx => hw x (by simp [hx])) (Or.inr ?_) l hl
      refine ⟨(if first then pfx else ind), [word], ?_, by simp,
        ?_, by simp [joinSp], Or.inr rfl⟩
      · cases first <;> simp
      · intro x hx
        simp at hx
        subst hx
        exact hgw
    · split at hl
      · next hc hfit =>
        rcases hcur with h | h
        · exact absurd h hc
        obtain ⟨p, ws0, hp, hws0ne, hws0g, hceq, -⟩ := h
        refine ih first _ (fun x hx => hw x (by simp [hx])) (Or.inr ?_) l hl
        refine ⟨p, ws0 ++ [word], hp, by simp, ?_, ?_, Or.inl ?_⟩
        · intro x hx
          rcases List.mem_append.mp hx with h' | h'
          · exact hws0g x h'
          · simp at h'
            subst h'
            exact hgw
        · rw [hceq, joinSp_append hws0ne (by simp)]
          simp [joinSp]
        · rw [utf8Len_append, utf8Len_cons, utf8Size_space]
          omega
      · next hc hfit =>
        rcases hcur with h | h
        · exact absurd h hc
        rcases List.mem_cons.mp hl with h' | h'
        · subst h'
          exact h
        · refine ih first _ (fun x hx => hw x (by simp [hx])) (Or.inr ?_) l h'
          refine ⟨(if first then pfx else ind), [word], ?_, by simp,
            ?_, by simp [joinSp], Or.inr rfl⟩
          · cases first <;> simp
          · intro x hx
            simp at hx
            subst hx
            exact hgw

theorem wrap_core_ne_nil_of_cur (width : Nat) (pfx ind : List Char) :
    ∀ (words : List (List Char)) (first : Bool) (current : List Char),
      current ≠ [] → wrap_core width pfx ind words first current ≠ [] := by
  intro words
  induction words with
  | nil =>
    intro first current hc
    simp [wrap_core, hc]
  | cons word ws ih =>
    intro first current hc
    simp only [wrap_core]
    rw [if_neg hc]
    split
    · exact ih first _ (by simp)
    · simp

theorem wrap_core_pack (width : Nat) (pfx ind : List Char) :
    ∀ (ws done : List (List Char)) (first : Bool),
      done ≠ [] → (∀ x ∈ done ++ ws, goodWord x = true) →
      utf8Len (pfx ++ joinSp (done ++ ws)) ≤ width →
      wrap_core width pfx ind ws first (pfx ++ joinSp done)
        = [pfx ++ joinSp (done ++ ws)] := by
  intro ws
  induction ws with
  | nil =>
    intro done first hdne hg _
    have hcne : pfx ++ joinSp done ≠ [] :=
      pfx_joinSp_ne_nil hdne (fun x hx => hg x (by simp [hx]))
    simp [wrap_core, hcne]
  | cons word ws2 ih =>
    intro done first hdne hg hfit
    have hcne : pfx ++ joinSp done ≠ [] :=
      pfx_joinSp_ne_nil hdne (fun x hx => hg x (by simp [hx]))
    have hj : joinSp (done ++ word :: ws2)
        = joinSp done ++ ' ' :: joinSp (word :: ws2) :=
      joinSp_append hdne (by simp)
    have hge := utf8Len_joinSp_cons_ge word ws2
    have hfit2 : utf8Len (pfx ++ joinSp done) + 1 + utf8Len word ≤ width := by
      rw [hj, utf8Len_append, utf8Len_append, utf8Len_cons, utf8Size_space] at hfit
      rw [utf8Len_append]
      omega
    simp only [wrap_core]
    rw [if_neg hcne, if_pos hfit2]
    have hstep : (pfx ++ joinSp done) ++ ' ' :: word
        = pfx ++ joinSp (done ++ [word]) := by
      rw [joinSp_append hdne (by simp)]
      simp [joinSp]
    have hre : (done ++ [word]) ++ ws2 = done ++ word :: ws2 := by simp
    rw [hstep, ih (done ++ [word]) first (by simp)
      (by rw [hre]; exact hg) (by rw [hre]; exact hfit), hre]

theorem wrap_core_nil_eq (width : Nat) (pfx ind : List Char) (first : Bool)
    (current : List Char) :
    wrap_core width pfx ind [] first current
      = if current = [] then [] else [current] := by
  rw [wrap_core]

theorem wrap_core_start (width : Nat) (pfx ind word : List Char)
    (ws : List (List Char)) (first : Bool) :
    wrap_core width pfx ind (word :: ws) first []
      = wrap_core width pfx ind ws false ((if first then pfx else ind) ++ word) := by
  rw [wrap_core]
  rw [if_pos rfl]

theorem dropWhile_head_false {p : Char → Bool} : ∀ (l : List Char) {c : Char}
    {cs : List Char}, l.dropWhile p = c :: cs → p c = false := by
  intro l
  induction l with
  | nil => intro c cs h; simp at h
  | cons a t ih =>
    intro c cs h
    by_cases ha : p a = true
    · rw [List.dropWhile_cons_of_pos ha] at h
      exact ih h
    · rw [List.dropWhile_cons_of_neg ha] at h
      injection h with h1 _
      subst h1
      simpa using ha

theorem splitWhitespace_ne_nil_of_exists {l : List Char}
    (h : ∃ c ∈ l, c.isWhitespace = false) : splitWhitespace l ≠ [] := by
  intro hnil
  obtain ⟨-, hall⟩ := splitWsAux_eq_nil l [] hnil
  obtain ⟨c, hc, hpc⟩ := h
  rw [hall c hc] at hpc
  simp at hpc

theorem mem_foldr_wrap (wd : Nat) : ∀ (rs : List (List Char)) (l : List Char),
    l ∈ rs.foldr (fun raw acc => wrap_md_line wd raw ++ acc) [] ↔
      ∃ raw ∈ rs, l ∈ wrap_md_line wd raw := by
  intro rs
  induction rs with
  | nil => simp
  | cons r rest ih =>
    intro l
    simp only [List.foldr_cons, List.mem_append, ih l, List.mem_cons]
    constructor
    · rintro (h | ⟨raw, hraw, hm⟩)
      · exact ⟨r, Or.inl rfl, h⟩
      · exact ⟨raw, Or.inr hraw, hm⟩
    · rintro ⟨raw, hraw | hraw, hm⟩
      · subst hraw; exact Or.inl hm
      · exact Or.inr ⟨raw, hraw, hm⟩

theorem wrap_line_shape (text : List Char) (width : Nat) (pfx : List Char) :
    ∀ l ∈ wrap_line text width pfx,
      lineShape width pfx (List.replicate pfx.length ' ') l ∨ l = pfx := by
  intro l hl
  simp only [wrap_line] at hl
  split at hl
  · simp at hl
    exact Or.inr hl
  · exact Or.inl (wrap_core_shape width pfx (List.replicate pfx.length ' ')
      (splitWhitespace text) true [] (splitWhitespace_good text) (Or.inl rfl) l hl)

theorem wrap_line_shape_of_words {text : List Char} (width : Nat)
    (pfx : List Char) (hwords : splitWhitespace text ≠ []) :
    ∀ l ∈ wrap_line text width pfx,
      lineShape width pfx (List.replicate pfx.length ' ') l := by
  intro l hl
  simp only [wrap_line] at hl
  rw [if_neg ?notnil] at hl
  case notnil =>
    cases hsp : splitWhitespace text with
    | nil => exact absurd hsp hwords
    | cons w1 ws =>
      rw [wrap_core_start]
      apply wrap_core_ne_nil_of_cur
      have hw1 : w1 ≠ [] :=
        (goodWord_iff.mp (splitWhitespace_good text w1 (by rw [hsp]; simp))).1
      intro hcontra
      rcases List.append_eq_nil.mp hcontra with ⟨-, h2⟩
      exact hw1 h2
  exact wrap_core_shape width pfx (List.replicate pfx.length ' ')
    (splitWhitespace text) true [] (splitWhitespace_good text) (Or.inl rfl) l hl

theorem trim_joinSp {ws : List (List Char)} (hne : ws ≠ [])
    (hg : ∀ x ∈ ws, goodWord x = true) : trim (joinSp ws) = joinSp ws := by
  have hte : trimEnd (joinSp ws) = joinSp ws := by
    apply trimEnd_eq_self
    intro c cs h
    obtain ⟨c0, cs0, hrev, hc0⟩ := joinSp_last ws hne hg
    rw [hrev] at h
    injection h with h1 _
    subst h1
    exact hc0
  unfold trim
  rw [hte]
  apply trimStart_eq_self
  intro c hc
  cases ws with
  | nil => exact absurd rfl hne
  | cons w1 rest =>
    have hw1 := goodWord_iff.mp (hg w1 (by simp))
    rw [joinSp_head rest hw1.1] at hc
    cases w1 with
    | nil => exact absurd rfl hw1.1
    | cons a t =>
      injection hc with h1
      subst h1
      exact hw1.2 a (by simp)

theorem wrap_line_exact (w : Nat) (p : List Char) (ws : List (List Char))
    (hne : ws ≠ []) (hg : ∀ x ∈ ws, goodWord x = true)
    (hb : utf8Len (p ++ joinSp ws) ≤ w ∨ ws.length = 1) :
    wrap_line (joinSp ws) w p = [p ++ joinSp ws] := by
  simp only [wrap_line]
  rw [splitWs_joinSp ws hg]
  cases ws with
  | nil => exact absurd rfl hne
  | cons w1 rest =>
    have hw1 : w1 ≠ [] := (goodWord_iff.mp (hg w1 (by simp))).1
    cases rest with
    | nil =>
      rw [wrap_core_start, if_pos rfl, wrap_core_nil_eq]
      have hcne : p ++ w1 ≠ [] := by
        intro hcontra
        rcases List.append_eq_nil.mp hcontra with ⟨-, h2⟩
        exact hw1 h2
      rw [if_neg hcne, if_neg (by simp)]
      rfl
    | cons r1 rest2 =>
      have hb2 : utf8Len (p ++ joinSp (w1 :: r1 :: rest2)) ≤ w := by
        rcases hb with h | h
        · exact h
        · simp at h
      rw [wrap_core_start, if_pos rfl]
      have h0 : p ++ w1 = p ++ joinSp [w1] := rfl
      have hpack := wrap_core_pack w p (List.replicate p.length ' ')
        (r1 :: rest2) [w1] false (by simp) hg hb2
      rw [h0, hpack, if_neg (by simp)]
      rfl

theorem wrap_markdown_shape (text : List Char) (width : Nat) :
    ∀ l ∈ wrap_markdown text width, l = [] ∨
      ∃ p ws, (p = [] ∨ p = ['-', ' '] ∨ p = ['*', ' '] ∨ p = [' ', ' '])
        ∧ ws ≠ [] ∧ (∀ x ∈ ws, goodWord x = true) ∧ l = p ++ joinSp ws
        ∧ (utf8Len l ≤ max width 10 ∨ ws.length = 1) := by
  intro l hl
  unfold wrap_markdown at hl
  obtain ⟨raw, hraw, hml⟩ := (mem_foldr_wrap (max width 10) (rustLines text) l).mp hl
  simp only [wrap_md_line] at hml
  split at hml
  · simp at hml
    exact Or.inl hml
  · split at hml
    · next hbul =>
      have h2 : (trimEnd raw).take 2 = ['-', ' ']
          ∨ (trimEnd raw).take 2 = ['*', ' '] := hbul
      have hsplit : trimEnd raw
          = (trimEnd raw).take 2 ++ (trimEnd raw).drop 2 :=
        (List.take_append_drop 2 (trimEnd raw)).symm
      have htne : trimEnd raw ≠ [] := by
        intro hcontra
        rw [hcontra] at h2
        rcases h2 with h | h <;> simp at h
      have hlastte : ∃ c cs, (trimEnd raw).reverse = c :: cs
          ∧ c.isWhitespace = false := by
        cases hrev : (trimEnd raw).reverse with
        | nil =>
          exact absurd (by simpa using congrArg List.reverse hrev) htne
        | cons c cs =>
          refine ⟨c, cs, rfl, ?_⟩
          have hdw : (raw.reverse.dropWhile (fun c => c.isWhitespace)) = c :: cs := by
            have := congrArg List.reverse hrev
            simpa [trimEnd] using this
          exact dropWhile_head_false raw.reverse hdw
      have hdne : (trimEnd raw).drop 2 ≠ [] := by
        intro hdrop
        obtain ⟨c, cs, hrev, hc⟩ := hlastte
        rw [hdrop, List.append_nil] at hsplit
        rcases h2 with h | h <;>
          · rw [hsplit, h] at hrev
            simp at hrev
            rw [← hrev.1] at hc
            simp at hc
      have hdlast : ∃ c ∈ (trimEnd raw).drop 2, c.isWhitespace = false := by
        obtain ⟨c, cs, hrev, hc⟩ := hlastte
        cases hd : (trimEnd raw).drop 2 with
        | nil => exact absurd hd hdne
        | cons d ds =>
          cases hrev2 : (d :: ds).reverse with
          | nil => simp at hrev2
          | cons e es =>
            have hwhole : (trimEnd raw).reverse
                = (d :: ds).reverse ++ ((trimEnd raw).take 2).reverse := by
              conv_lhs => rw [hsplit, hd]
              rw [List.reverse_append]
            rw [hrev2, hrev] at hwhole
            simp only [List.cons_append] at hwhole
            injection hwhole with h1 _
            subst h1
            refine ⟨c, ?_, hc⟩
            have hmem : c ∈ (d :: ds).reverse := by rw [hrev2]; simp
            exact List.mem_reverse.mp hmem
      have hwords : splitWhitespace (trim ((trimEnd raw).drop 2)) ≠ [] :=
        splitWhitespace_ne_nil_of_exists (exists_nonws_trim hdlast)
      obtain ⟨p, ws, hp, hwsne, hwsg, heq, hbd⟩ :=
        wrap_line_shape_of_words (max width 10) ((trimEnd raw).take 2) hwords l hml
      right
      refine ⟨p, ws, ?_, hwsne, hwsg, heq, hbd⟩
      rcases hp with h | h
      · rcases h2 with hk | hk
        · rw [hk] at h
          exact Or.inr (Or.inl h)
        · rw [hk] at h
          exact Or.inr (Or.inr (Or.inl h))
      · have hlen : ((trimEnd raw).take 2).length = 2 := by
          rcases h2 with hk | hk <;> rw [hk] <;> rfl
        rw [hlen] at h
        refine Or.inr (Or.inr (Or.inr ?_))
        rw [h]
        rfl
    · rcases wrap_line_shape (trimEnd raw) (max width 10) [] l hml with hsh | hpe
      · obtain ⟨p, ws, hp, hwsne, hwsg, heq, hbd⟩ := hsh
        right
        refine ⟨p, ws, ?_, hwsne, hwsg, heq, hbd⟩
        rcases hp with h | h
        · exact Or.inl h
        · simp at h
          exact Or.inl h
      · exact Or.inl hpe

/-!
Claim C2: the per-line width bound and the greedy packing rule.
-/

/-- Claim C2: for width at least 10, every line produced by `wrap_markdown`
consists of a two-character bullet or indent prefix (or none) followed by
whitespace-delimited words joined by single spaces, and the part after the
prefix fits the width unless it is a single word longer than the width,
which then occupies that line by itself; and the packing loop of
`wrap_line` appends a word to a nonempty current line exactly when
current length + 1 + word length is at most the width. -/
theorem c2_wrap_width_bound (body : List Char) (w : Nat) (hw : 10 ≤ w) :
    (∀ l ∈ wrap_markdown body w,
      ∃ p ws, (p = [] ∨ p = ['-', ' '] ∨ p = ['*', ' '] ∨ p = [' ', ' '])
        ∧ (∀ x ∈ ws, goodWord x = true)
        ∧ l = p ++ joinSp ws
        ∧ (utf8Len (joinSp ws) ≤ w
            ∨ ∃ word, ws = [word] ∧ w < utf8Len word))
    ∧ (∀ (pfx ind current word : List Char) (ws : List (List Char))
        (first : Bool), current ≠ [] →
        wrap_core w pfx ind (word :: ws) first current =
          if utf8Len current + 1 + utf8Len word ≤ w then
            wrap_core w pfx ind ws first (current ++ ' ' :: word)
          else
            current :: wrap_core w pfx ind ws first
              ((if first then pfx else ind) ++ word)) := by
  have hmax : max w 10 = w := Nat.max_eq_left hw
  constructor
  · intro l hl
    rcases wrap_markdown_shape body w l hl with hnil | ⟨p, ws, hp, -, hg, heq, hb⟩
    · subst hnil
      exact ⟨[], [], Or.inl rfl, by simp, rfl, Or.inl (by simp [joinSp, utf8Len])⟩
    · refine ⟨p, ws, hp, hg, heq, ?_⟩
      rw [hmax] at hb
      rcases hb with h | h
      · left
        rw [heq, utf8Len_append] at h
        omega
      · obtain ⟨word, rfl⟩ := List.length_eq_one.mp h
        by_cases hlen : utf8Len (joinSp [word]) ≤ w
        · exact Or.inl hlen
        · refine Or.inr ⟨word, rfl, ?_⟩
          have : joinSp [word] = word := rfl
          rw [this] at hlen
          omega
  · intro pfx ind current word ws first hc
    rw [wrap_core]
    rw [if_neg hc]

/-- Witness for C2 at the body of the bullet scenario and width 10. -/
theorem c2_wrap_width_witness :
    10 ≤ 10 ∧
    ((∀ l ∈ wrap_markdown "- one two three".data 10,
      ∃ p ws, (p = [] ∨ p = ['-', ' '] ∨ p = ['*', ' '] ∨ p = [' ', ' '])
        ∧ (∀ x ∈ ws, goodWord x = true)
        ∧ l = p ++ joinSp ws
        ∧ (utf8Len (joinSp ws) ≤ 10
            ∨ ∃ word, ws = [word] ∧ 10 < utf8Len word))
    ∧ (∀ (pfx ind current word : List Char) (ws : List (List Char))
        (first : Bool), current ≠ [] →
        wrap_core 10 pfx ind (word :: ws) first current =
          if utf8Len current + 1 + utf8Len word ≤ 10 then
            wrap_core 10 pfx ind ws first (current ++ ' ' :: word)
          else
            current :: wrap_core 10 pfx ind ws first
              ((if first then pfx else ind) ++ word))) :=
  ⟨by decide, c2_wrap_width_bound "- one two three".data 10 (by decide)⟩

/-!
Claim C7: the bullet wrapping scenario.
-/

/-- Claim C7: wrapping the body consisting of the single bullet line with the
words one, two and three at width 10 yields exactly the two lines
"- one two" and "  three": the marker is the two-character prefix of the
first output line and the continuation line carries a two-space indent. -/
theorem c7_wrap_bullet_scenario :
    wrap_markdown "- one two three".data 10
      = ["- one two".data, "  three".data] := by
  decide

/-!
Claim C8: which output lines rewrap to themselves.
-/

theorem rewrap_line (w : Nat) (p : List Char) (ws : List (List Char))
    (hw : 10 ≤ w) (hp : p = [] ∨ p = ['-', ' '] ∨ p = ['*', ' '])
    (hne : ws ≠ []) (hg : ∀ x ∈ ws, goodWord x = true)
    (hb : utf8Len (p ++ joinSp ws) ≤ w ∨ ws.length = 1) :
    wrap_markdown (p ++ joinSp ws) w = [p ++ joinSp ws] := by
  have hmax : max w 10 = w := Nat.max_eq_left hw
  have hlne : p ++ joinSp ws ≠ [] := pfx_joinSp_ne_nil hne hg
  have hlchars : ∀ c ∈ p ++ joinSp ws,
      c = '-' ∨ c = '*' ∨ c = ' ' ∨ c.isWhitespace = false := by
    intro c hc
    rcases List.mem_append.mp hc with h | h
    · rcases hp with h' | h' | h'
      · subst h'
        simp at h
      · subst h'
        simp at h
        rcases h with h | h
        · exact Or.inl h
        · exact Or.inr (Or.inr (Or.inl h))
      · subst h'
        simp at h
        rcases h with h | h
        · exact Or.inr (Or.inl h)
        · exact Or.inr (Or.inr (Or.inl h))
    · rcases mem_joinSp hg c h with h' | h'
      · exact Or.inr (Or.inr (Or.inl h'))
      · exact Or.inr (Or.inr (Or.inr h'))
  have hnl : ∀ c ∈ p ++ joinSp ws, ¬ (c = '\n') := by
    intro c hc heq
    subst heq
    rcases hlchars '\n' hc with h | h | h | h
    · exact absurd h (by decide)
    · exact absurd h (by decide)
    · exact absurd h (by decide)
    · exact absurd h (by decide)
  have hlast : ∃ c cs, (p ++ joinSp ws).reverse = c :: cs
      ∧ c.isWhitespace = false := by
    obtain ⟨c, cs, hrev, hc⟩ := joinSp_last ws hne hg
    exact ⟨c, cs ++ p.reverse, by simp [hrev], hc⟩
  have htre : trimEnd (p ++ joinSp ws) = p ++ joinSp ws := by
    apply trimEnd_eq_self
    intro c cs h
    obtain ⟨c0, cs0, hrev, hc0⟩ := hlast
    rw [hrev] at h
    injection h with h1 _
    subst h1
    exact hc0
  have htrne : trim (p ++ joinSp ws) ≠ [] := by
    apply trim_ne_nil
    obtain ⟨c0, cs0, hrev, hc0⟩ := hlast
    refine ⟨c0, ?_, hc0⟩
    have hmem : c0 ∈ (p ++ joinSp ws).reverse := by rw [hrev]; simp
    exact List.mem_reverse.mp hmem
  have hmd : wrap_md_line w (p ++ joinSp ws) = [p ++ joinSp ws] := by
    simp only [wrap_md_line, htre]
    rw [if_neg htrne]
    rcases hp with hp0 | hpb | hpb
    · subst hp0
      simp only [List.nil_append]
      cases ws with
      | nil => exact absurd rfl hne
      | cons w1 rest =>
        have hw1 := goodWord_iff.mp (hg w1 (by simp))
        by_cases hcase : (w1 = ['-'] ∨ w1 = ['*']) ∧ rest ≠ []
        · obtain ⟨hm, hrne⟩ := hcase
          have hgr : ∀ x ∈ rest, goodWord x = true :=
            fun x hx => hg x (by simp [hx])
          rcases hm with hm | hm
          · subst hm
            have hleq : joinSp (['-'] :: rest) = ['-', ' '] ++ joinSp rest := by
              rw [joinSp_cons_of_ne_nil _ hrne]
              rfl
            have hb2 : utf8Len (['-', ' '] ++ joinSp rest) ≤ w := by
              rcases hb with h | h
              · rw [List.nil_append, hleq] at h
                exact h
              · have hr0 : rest.length = 0 := by simpa using h
                exact absurd (List.length_eq_zero.mp hr0) hrne
            rw [hleq,
              show (['-', ' '] ++ joinSp rest).take 2 = ['-', ' '] from rfl,
              show (['-', ' '] ++ joinSp rest).drop 2 = joinSp rest from rfl,
              if_pos (Or.inl rfl), trim_joinSp hrne hgr]
            exact wrap_line_exact w ['-', ' '] rest hrne hgr (Or.inl hb2)
          · subst hm
            have hleq : joinSp (['*'] :: rest) = ['*', ' '] ++ joinSp rest := by
              rw [joinSp_cons_of_ne_nil _ hrne]
              rfl
            have hb2 : utf8Len (['*', ' '] ++ joinSp rest) ≤ w := by
              rcases hb with h | h
              · rw [List.nil_append, hleq] at h
                exact h
              · have hr0 : rest.length = 0 := by simpa using h
                exact absurd (List.length_eq_zero.mp hr0) hrne
            rw [hleq,
              show (['*', ' '] ++ joinSp rest).take 2 = ['*', ' '] from rfl,
              show (['*', ' '] ++ joinSp rest).drop 2 = joinSp rest from rfl,
              if_pos (Or.inr rfl), trim_joinSp hrne hgr]
            exact wrap_line_exact w ['*', ' '] rest hrne hgr (Or.inl hb2)
        · have hnb : ¬ ((joinSp (w1 :: rest)).take 2 = ['-', ' ']
              ∨ (joinSp (w1 :: rest)).take 2 = ['*', ' ']) := by
            intro hcon
            have h2 : ∃ m, (m = '-' ∨ m = '*')
                ∧ (joinSp (w1 :: rest)).take 2 = [m, ' '] := by
              rcases hcon with h | h
              · exact ⟨'-', Or.inl rfl, h⟩
              · exact ⟨'*', Or.inr rfl, h⟩
            obtain ⟨m, hm, htk⟩ := h2
            cases w1 with
            | nil => exact absurd rfl hw1.1
            | cons c1 t1 =>
              cases t1 with
              | nil =>
                cases rest with
                | nil => simp [joinSp] at htk
                | cons r1 rest2 =>
                  rw [joinSp_cons_of_ne_nil _ (by simp)] at htk
                  have htk2 : c1 = m := by simpa using htk
                  subst htk2
                  refine hcase ⟨?_, by simp⟩
                  rcases hm with h | h
                  · subst h
                    exact Or.inl rfl
                  · subst h
                    exact Or.inr rfl
              | cons c2 t2 =>
                have hc2 : c2.isWhitespace = false := hw1.2 c2 (by simp)
                have htk2 : (joinSp ((c1 :: c2 :: t2) :: rest)).take 2
                    = [c1, c2] := by
                  cases rest with
                  | nil => rfl
                  | cons r1 rest2 =>
                    rw [joinSp_cons_of_ne_nil _ (by simp)]
                    rfl
                rw [htk2] at htk
                simp at htk
                rw [htk.2] at hc2
                exact absurd hc2 (by decide)
          rw [if_neg hnb]
          have hres := wrap_line_exact w [] (w1 :: rest) (by simp) hg hb
          simpa using hres
    · subst hpb
      rw [show (['-', ' '] ++ joinSp ws).take 2 = ['-', ' '] from rfl,
        show (['-', ' '] ++ joinSp ws).drop 2 = joinSp ws from rfl,
        if_pos (Or.inl rfl), trim_joinSp hne hg]
      exact wrap_line_exact w ['-', ' '] ws hne hg hb
    · subst hpb
      rw [show (['*', ' '] ++ joinSp ws).take 2 = ['*', ' '] from rfl,
        show (['*', ' '] ++ joinSp ws).drop 2 = joinSp ws from rfl,
        if_pos (Or.inr rfl), trim_joinSp hne hg]
      exact wrap_line_exact w ['*', ' '] ws hne hg hb
  unfold wrap_markdown
  rw [rustLines_single hlne hnl, hmax]
  simp only [List.foldr_cons, List.foldr_nil, List.append_nil]
  exact hmd

/-- Claim C8 counterexample: the continuation line of the bullet scenario,
"  three", is an output line of wrap at width 10 that needs no further
breaking, yet wrapping it again yields ["three"]: the two-space indent is
stripped, so the line is not reproduced unchanged. -/
theorem c8_wrap_idempotent_counterexample :
    "  three".data ∈ wrap_markdown "- one two three".data 10
    ∧ wrap_markdown "  three".data 10 ≠ ["  three".data] := by
  decide

/-- Claim C8 (amended): for every width at least 10, every output line of
wrap at that width that is nonempty and does not begin with a whitespace
character is reproduced unchanged when wrapped again at the same width (a
bullet continuation line begins with the two-space indent and loses it, and
a blank paragraph line vanishes, so those are excluded). -/
theorem c8_wrap_idempotent_amended (body : List Char) (w : Nat) (hw : 10 ≤ w) :
    ∀ l ∈ wrap_markdown body w, l ≠ [] →
      (∀ c, l.head? = some c → c.isWhitespace = false) →
      wrap_markdown l w = [l] := by
  intro l hl hlne hhead
  rcases wrap_markdown_shape body w l hl with h | ⟨p, ws, hp, hne, hg, heq, hb⟩
  · exact absurd h hlne
  · have hmax : max w 10 = w := Nat.max_eq_left hw
    rw [hmax] at hb
    subst heq
    rcases hp with h | h | h | h
    · subst h
      exact rewrap_line w [] ws hw (Or.inl rfl) hne hg hb
    · subst h
      exact rewrap_line w ['-', ' '] ws hw (Or.inr (Or.inl rfl)) hne hg hb
    · subst h
      exact rewrap_line w ['*', ' '] ws hw (Or.inr (Or.inr rfl)) hne hg hb
    · subst h
      exact absurd (hhead ' ' rfl) (by decide)

/-- Witness for C8: the first line of the bullet scenario output, which
starts with the marker rather than whitespace, rewraps to itself. -/
theorem c8_wrap_idempotent_witness :
    10 ≤ 10 ∧ "- one two".data ∈ wrap_markdown "- one two three".data 10
    ∧ "- one two".data ≠ []
    ∧ wrap_markdown "- one two".data 10 = ["- one two".data] :=
  ⟨by decide, by decide, by decide,
   c8_wrap_idempotent_amended "- one two three".data 10 (by decide)
     "- one two".data (by decide) (by decide)
     (fun c hc => by
        rw [show ("- one two".data).head? = some '-' from rfl] at hc
        injection hc with h
        subst h
        decide)⟩
